import Mathlib

/-!
Verification development for the diffguard action's core logic
(`src/index.js`): the diff filter `filterExcludedFiles` and the score
extractor `extractScore`.  Strings are embedded as `List Char`; the
JavaScript regular expressions used by the source are embedded as
executable scanning functions (for the two fixed score regexes and the
two fixed path-extraction regexes) and as a small derivative-based
regex engine (for the dynamically built glob-to-regex pattern of the
file filter).  Floating point star ratings are modelled as exact
decimal rationals; `Math.round` is round-half-up on those rationals.
-/

namespace DiffGuard

/-- Whitespace test modelling the JavaScript regex class backslash-s on the
characters relevant here (ASCII whitespace, NBSP, the line/paragraph
separators and the BOM; the rare exotic Unicode spaces are not modelled). -/
def isWsChar (c : Char) : Bool :=
  c = ' ' || c = '\t' || c = '\n' || c = '\r' || c = '\x0b' || c = '\x0c' ||
  c = ' ' || c = ' ' || c = ' ' || c = '﻿'

/-- Character test for the JavaScript regex dot without the dotAll flag:
any character except a line terminator. -/
def jsDot (c : Char) : Bool :=
  !(c = '\n' || c = '\r' || c = ' ' || c = ' ')

/-- Regular expressions over characters.  This covers the fragment of
JavaScript regexes reachable from the glob-to-regex conversion performed by
`filterExcludedFiles` (literals, escaped literals, dot, star, plus). -/
inductive Regex where
  | nul
  | eps
  | char (c : Char)
  | pred (f : Char → Bool)
  | alt (r s : Regex)
  | cat (r s : Regex)
  | star (r : Regex)

/-- Does the regex accept the empty string? -/
def nullable : Regex → Bool
  | .nul => false
  | .eps => true
  | .char _ => false
  | .pred _ => false
  | .alt r s => nullable r || nullable s
  | .cat r s => nullable r && nullable s
  | .star _ => true

/-- Brzozowski derivative of a regex by one character. -/
def deriv : Regex → Char → Regex
  | .nul, _ => .nul
  | .eps, _ => .nul
  | .char c, a => if a = c then .eps else .nul
  | .pred f, a => if f a then .eps else .nul
  | .alt r s, a => .alt (deriv r a) (deriv s a)
  | .cat r s, a =>
    if nullable r then .alt (.cat (deriv r a) s) (deriv s a)
    else .cat (deriv r a) s
  | .star r, a => .cat (deriv r a) (.star r)

/-- Full (anchored) regex match, via iterated derivatives. -/
def rmatch (r : Regex) (s : List Char) : Bool :=
  nullable (s.foldl deriv r)

/-- Declarative matching semantics for `Regex`. -/
inductive RMatches : Regex → List Char → Prop where
  | eps : RMatches .eps []
  | char (c : Char) : RMatches (.char c) [c]
  | pred (f : Char → Bool) (c : Char) : f c = true → RMatches (.pred f) [c]
  | altL (r s : Regex) (t : List Char) : RMatches r t → RMatches (.alt r s) t
  | altR (r s : Regex) (t : List Char) : RMatches s t → RMatches (.alt r s) t
  | cat (r s : Regex) (t u : List Char) : RMatches r t → RMatches s u →
      RMatches (.cat r s) (t ++ u)
  | starNil (r : Regex) : RMatches (.star r) []
  | starCons (r : Regex) (c : Char) (t u : List Char) :
      RMatches r (c :: t) → RMatches (.star r) u →
      RMatches (.star r) (c :: (t ++ u))

/-- Characters on which the embedded regex parser gives up.  A JavaScript
pattern containing one of them either fails to compile (for example a lone
opening bracket, which the source treats as "this pattern never matches") or
uses a construct outside the modelled fragment (groups, classes, anchors,
alternation, braces as quantifiers); both are modelled as a non-match.
A question mark cannot occur: the conversion rewrites every question mark
to a dot before parsing. -/
def rejectedChar (c : Char) : Bool :=
  c = '(' || c = ')' || c = '[' || c = '{' || c = '}' || c = '|' ||
  c = '^' || c = '$' || c = '?'

/-- Parser for the converted pattern string, producing the atom list in
reverse order (so that the postfix star and plus operators of JavaScript
regex syntax can grab the preceding atom). -/
def parseAtoms : List Regex → List Char → Option (List Regex)
  | acc, [] => some acc
  | acc, c :: rest =>
    if c = '*' then
      match acc with
      | [] => none
      | a :: acc' => parseAtoms (.star a :: acc') rest
    else if c = '+' then
      match acc with
      | [] => none
      | a :: acc' => parseAtoms (.cat a (.star a) :: acc') rest
    else if c = '\\' then
      match rest with
      | [] => none
      | e :: rest' => if e.isAlphanum then none else parseAtoms (.char e :: acc) rest'
    else if c = '.' then parseAtoms (.pred jsDot :: acc) rest
    else if rejectedChar c then none
    else parseAtoms (.char c :: acc) rest

/-- The per-character part of the glob-to-regex conversion of the source:
dot is escaped, star becomes dot-star, question mark becomes dot.  The three
sequential global replaces of the source act on disjoint characters and are
therefore equivalent to this single character-wise map. -/
def convChar (c : Char) : List Char :=
  if c = '.' then ['\\', '.']
  else if c = '*' then ['.', '*']
  else if c = '?' then ['.']
  else [c]

/-- The glob-to-regex conversion applied to a whole pattern. -/
def convertChars : List Char → List Char
  | [] => []
  | c :: rest => convChar c ++ convertChars rest

/-- Sequential composition of a list of regexes. -/
def seqR (l : List Regex) : Regex := l.foldr .cat .eps

/-- The compiled, anchored regex that `filterExcludedFiles` builds from an
exclusion pattern; `none` models a pattern whose regex does not compile or
leaves the modelled fragment. -/
def jsRegexOf (pattern : List Char) : Option Regex :=
  match parseAtoms [] (convertChars pattern) with
  | none => none
  | some atoms => some (seqR atoms.reverse)

/-- The regex atom the source's conversion produces for one glob character. -/
def fJS (c : Char) : Regex :=
  if c = '*' then .star (.pred jsDot)
  else if c = '?' then .pred jsDot
  else .char c

/-- The regex atom for one glob character as the specification reads it:
star is any run of characters, question mark is any single character,
everything else is a literal. -/
def fSpec (c : Char) : Regex :=
  if c = '*' then .star (.pred (fun _ => true))
  else if c = '?' then .pred (fun _ => true)
  else .char c

/-- Glob matching exactly as the specification words rule 3: the pattern read
as a glob (dot literal, star any run of characters, question mark any single
character) matches the full path anchored at both ends. -/
def specGlobMatch (pattern path : List Char) : Bool :=
  rmatch (seqR (pattern.map fSpec)) path

/-- Does the list start with a slash followed by a non-whitespace character? -/
def slashNonWs : List Char → Bool
  | s :: d :: _ => s == '/' && !isWsChar d
  | _ => false

/-- Embedding of the path-extraction regex of the source (the letter `a` or
`b`, a slash, then a captured maximal run of at least one non-whitespace
character), returning the first capture in a left-to-right scan. -/
def findSlash (letter : Char) : List Char → Option (List Char)
  | [] => none
  | c :: rest =>
    if c == letter && slashNonWs rest then
      some ((rest.drop 1).takeWhile (fun x => !isWsChar x))
    else findSlash letter rest

/-- The candidate file path of a diff section: the `a/` capture first, the
`b/` capture as fallback, as in the source. -/
def sectionPath (s : List Char) : Option (List Char) :=
  match findSlash 'a' s with
  | some p => some p
  | none => findSlash 'b' s

/-- Accumulator version of split-on-slash-and-take-the-last-piece. -/
def basenameAux : List Char → List Char → List Char
  | acc, [] => acc.reverse
  | acc, c :: rest => if c == '/' then basenameAux [] rest else basenameAux (c :: acc) rest

/-- Embedding of `filePath.split('/').pop()` from the source. -/
def basename (p : List Char) : List Char := basenameAux [] p

/-- The final path component as the specification words it: the text after
the last slash. -/
def specBasename (p : List Char) : List Char :=
  (p.reverse.takeWhile (fun c => c != '/')).reverse

/-- Embedding of the per-pattern exclusion test of the source: direct
suffix/equality match, then basename match, then the converted glob regex
(a pattern whose regex fails to compile never matches). -/
def matchesPattern (filePath pattern : List Char) : Bool :=
  (pattern.isSuffixOf filePath || filePath == pattern)
  || (basename filePath == pattern)
  || (match jsRegexOf pattern with
      | some r => rmatch r filePath
      | none => false)

/-- Characters that make a pattern leave the pure glob fragment: JavaScript
regex metacharacters that the conversion does not escape. -/
def badGlobChar (c : Char) : Bool :=
  c = '+' || c = '(' || c = ')' || c = '[' || c = '{' || c = '}' ||
  c = '|' || c = '^' || c = '$' || c = '\\'

/-- A pattern built only from glob-safe characters. -/
def globSafe (p : List Char) : Bool := p.all (fun c => !badGlobChar c)

/-- The three exclusion rules exactly as the specification words them:
exact equality or literal suffix; final component equality; glob match. -/
def specMatches3 (filePath pattern : List Char) : Bool :=
  (filePath == pattern || pattern.isSuffixOf filePath)
  || (specBasename filePath == pattern)
  || specGlobMatch pattern filePath

/-- The diff section marker of the source. -/
def marker : List Char := "diff --git".toList

/-- Fuelled splitting of a list on every (leftmost, non-overlapping)
occurrence of a separator, as `String.prototype.split` does for a non-empty
separator.  The fuel only serves termination; `splitOnL` supplies enough. -/
def splitOnAux (sep : List Char) : Nat → List Char → List (List Char)
  | _, [] => [[]]
  | 0, s => [s]
  | n + 1, c :: rest =>
    if sep.isPrefixOf (c :: rest) then
      [] :: splitOnAux sep n (List.drop sep.length (c :: rest))
    else
      match splitOnAux sep n rest with
      | [] => [[c]]
      | p :: ps => (c :: p) :: ps

/-- Split a list on every occurrence of a separator. -/
def splitOnL (sep s : List Char) : List (List Char) := splitOnAux sep s.length s

/-- Rejoining of the source: the first section verbatim, every later section
with the separator re-prepended, concatenated. -/
def joinSep (sep : List Char) : List (List Char) → List Char
  | [] => []
  | p :: ps => p ++ (ps.map (fun s => sep ++ s)).flatten

/-- Does a section survive filtering?  A section without an extractable path
is kept; otherwise it is kept unless its path matches some pattern. -/
def keepSection (patterns : List (List Char)) (s : List Char) : Bool :=
  match sectionPath s with
  | none => true
  | some p => !(patterns.any (fun pat => matchesPattern p pat))

/-- The fixed no-op placeholder diff of the source. -/
def placeholderDiff : String :=
  "diff --git a/README.md b/README.md\nindex 1234567..abcdefg 100644\n--- a/README.md\n+++ b/README.md\n@@ -1,1 +1,1 @@\n-# No changes to analyze\n+# No changes to analyze after exclusions"

/-- Embedding of `filterExcludedFiles` on character lists. -/
def filterCore (diff : List Char) (patterns : List (List Char)) : List Char :=
  if patterns.isEmpty then diff
  else
    match splitOnL marker diff with
    | [] => diff
    | s0 :: rest =>
      let filtered := joinSep marker (s0 :: rest.filter (keepSection patterns))
      if filtered.isEmpty then placeholderDiff.toList else filtered

/-- Embedding of `filterExcludedFiles` on strings. -/
def filterExcludedFiles (diff : String) (excludePatterns : List String) : String :=
  String.mk (filterCore diff.toList (excludePatterns.map String.toList))

/-- Every section after the first marker has an extractable path that matches
some exclusion pattern. -/
def allSectionsExcluded (diff : String) (patterns : List String) : Bool :=
  match splitOnL marker diff.toList with
  | [] => true
  | _ :: rest =>
    rest.all (fun s =>
      match sectionPath s with
      | some p => (patterns.map String.toList).any (fun pat => matchesPattern p pat)
      | none => false)

/-- The text of the diff before the first section marker. -/
def headSection (diff : String) : List Char := (splitOnL marker diff.toList).headD []

/-- Case-insensitive test for the literal word Score at the head of the list
(the i flag of the source's regex; ASCII case folding). -/
def scoreAt : List Char → Bool
  | c1 :: c2 :: c3 :: c4 :: c5 :: _ =>
    c1.toLower == 's' && c2.toLower == 'c' && c3.toLower == 'o' &&
    c4.toLower == 'r' && c5.toLower == 'e'
  | _ => false

/-- Decimal value of a digit list, with accumulator. -/
def digitsToNatAux (a : Nat) : List Char → Nat
  | [] => a
  | c :: r => digitsToNatAux (10 * a + (c.toNat - '0'.toNat)) r

/-- Decimal value of a digit list. -/
def digitsToNat (ds : List Char) : Nat := digitsToNatAux 0 ds

/-- JavaScript line terminators (not crossed by a dot without dotAll). -/
def isLineTerm (c : Char) : Bool :=
  c = '\n' || c = '\r' || c = ' ' || c = ' '

/-- The lazy dot-star followed by one to three captured digits: the first
digit reachable without crossing a line terminator starts the capture, which
then greedily extends over at most two more digits. -/
def findDigitsSameLine : List Char → Option (List Char)
  | [] => none
  | c :: rest =>
    if c.isDigit then some (c :: (rest.takeWhile Char.isDigit).take 2)
    else if isLineTerm c then none
    else findDigitsSameLine rest

/-- Embedding of the first (numeric) score regex of the source: the leftmost
occurrence of the word Score (case-insensitive) from which a run of one to
three digits is reachable on the same line yields that run's value. -/
def numericScoreScan : List Char → Option Nat
  | [] => none
  | c :: rest =>
    if scoreAt (c :: rest) then
      match findDigitsSameLine (rest.drop 4) with
      | some ds => some (digitsToNat ds)
      | none => numericScoreScan rest
    else numericScoreScan rest

/-- Digit or dot: the character class of the star-rating capture. -/
def isDigitOrDot (c : Char) : Bool := c.isDigit || c = '.'

/-- After the captured run the star regex requires a slash, the digit five,
an optional single space, and the star emoji. -/
def starSuffixOk (l : List Char) : Bool :=
  match l with
  | a :: b :: rest =>
    a == '/' && b == '5' &&
      (match rest with
       | c :: rest' =>
         c == '⭐' || (c == ' ' && (match rest' with | d :: _ => d == '⭐' | [] => false))
       | [] => false)
  | _ => false

/-- Embedding of the star-rating regex of the source: the leftmost opening
bracket followed by a non-empty run of digits and dots, a slash, a five, an
optional space and the star emoji yields the captured run.  (The greedy run
cannot be shrunk by backtracking: a shorter run would have to be followed by
a slash, but every character it gives back is a digit or a dot.) -/
def starScan : List Char → Option (List Char)
  | [] => none
  | c :: rest =>
    if c == '[' then
      if !(rest.takeWhile isDigitOrDot).isEmpty &&
          starSuffixOk (rest.drop (rest.takeWhile isDigitOrDot).length) then
        some (rest.takeWhile isDigitOrDot)
      else starScan rest
    else starScan rest

/-- Embedding of `parseFloat` on a run of digits and dots: the longest valid
decimal prefix, as the pair (digits read, number of fraction digits), or
`none` when the run starts with a dot not followed by a digit (NaN). -/
def parseFloatRun (run : List Char) : Option (Nat × Nat) :=
  match run.drop (run.takeWhile Char.isDigit).length with
  | '.' :: rest' =>
    if (run.takeWhile Char.isDigit).isEmpty && (rest'.takeWhile Char.isDigit).isEmpty then none
    else some (digitsToNat (run.takeWhile Char.isDigit ++ rest'.takeWhile Char.isDigit),
               (rest'.takeWhile Char.isDigit).length)
  | _ =>
    if (run.takeWhile Char.isDigit).isEmpty then none
    else some (digitsToNat (run.takeWhile Char.isDigit), 0)

/-- Math.round(stars / 5 * 100) for stars = num / 10 ^ k, on exact decimal
rationals: round half up of num * 20 / 10 ^ k. -/
def roundStars (num k : Nat) : Nat := (40 * num + 10 ^ k) / (2 * 10 ^ k)

/-- The second attempt of `extractScore`: star match, parse, rescale; the
match without a parseable number yields nothing (NaN check of the source). -/
def starBranch (s : List Char) : Option Nat :=
  match starScan s with
  | none => none
  | some run =>
    match parseFloatRun run with
    | none => none
    | some (num, k) => some (roundStars num k)

/-- Embedding of `extractScore` on character lists: numeric attempt first,
star attempt only when the numeric attempt finds nothing. -/
def extractScoreCore (analysis : List Char) : Option Nat :=
  match numericScoreScan analysis with
  | some n => some n
  | none => starBranch analysis

/-- Embedding of `extractScore` on strings. -/
def extractScore (analysis : String) : Option Nat := extractScoreCore analysis.toList

/-- Does the separator occur (as a contiguous block) inside the list? -/
def containsSeq (sep : List Char) : List Char → Bool
  | [] => sep.isEmpty
  | c :: rest => sep.isPrefixOf (c :: rest) || containsSeq sep rest

/-- A separator with no proper border: no non-trivial prefix of it is also a
suffix of it.  The diff section marker has this property, which is what makes
splitting on it and rejoining an exact inverse pair. -/
def borderFree (sep : List Char) : Prop :=
  ∀ j, j < sep.length → 0 < j → sep.take j ≠ sep.drop (sep.length - j)

/-! ### Correctness of the derivative-based regex matcher -/

theorem nullable_iff (r : Regex) : nullable r = true ↔ RMatches r [] := by
  induction r with
  | nul => exact ⟨(fun h => nomatch h), (fun h => nomatch h)⟩
  | eps => exact ⟨fun _ => .eps, fun _ => rfl⟩
  | char c => exact ⟨(fun h => nomatch h), (fun h => nomatch h)⟩
  | pred f => exact ⟨(fun h => nomatch h), (fun h => nomatch h)⟩
  | alt r s ihr ihs =>
    simp only [nullable, Bool.or_eq_true, ihr, ihs]
    constructor
    · rintro (h | h)
      · exact .altL _ _ _ h
      · exact .altR _ _ _ h
    · intro h
      cases h with
      | altL _ _ _ h => exact Or.inl h
      | altR _ _ _ h => exact Or.inr h
  | cat r s ihr ihs =>
    simp only [nullable, Bool.and_eq_true, ihr, ihs]
    constructor
    · rintro ⟨h1, h2⟩
      exact .cat r s [] [] h1 h2
    · intro h
      generalize hx : ([] : List Char) = x at h
      cases h with
      | cat _ _ t u h1 h2 =>
        obtain ⟨ht, hu⟩ := List.append_eq_nil.mp hx.symm
        subst ht; subst hu
        exact ⟨h1, h2⟩
  | star r ih =>
    exact ⟨fun _ => .starNil r, fun _ => rfl⟩

theorem deriv_iff (r : Regex) :
    ∀ (a : Char) (s : List Char), RMatches (deriv r a) s ↔ RMatches r (a :: s) := by
  induction r with
  | nul =>
    intro a s
    exact ⟨(fun h => nomatch h), (fun h => nomatch h)⟩
  | eps =>
    intro a s
    exact ⟨(fun h => nomatch h), (fun h => nomatch h)⟩
  | char c =>
    intro a s
    simp only [deriv]
    by_cases hac : a = c
    · subst hac
      simp only [if_pos rfl]
      constructor
      · intro h
        cases h
        exact .char a
      · intro h
        cases h
        exact .eps
    · rw [if_neg hac]
      constructor
      · intro h; exact nomatch h
      · intro h
        cases h
        exact absurd rfl hac
  | pred f =>
    intro a s
    simp only [deriv]
    by_cases hf : f a = true
    · rw [if_pos hf]
      constructor
      · intro h
        cases h
        exact .pred f a hf
      · intro h
        cases h
        exact .eps
    · rw [if_neg hf]
      constructor
      · intro h; exact nomatch h
      · intro h
        cases h with
        | pred _ _ hfc => exact absurd hfc hf
  | alt r s ihr ihs =>
    intro a t
    simp only [deriv]
    constructor
    · intro h
      cases h with
      | altL _ _ _ h => exact .altL _ _ _ ((ihr a t).mp h)
      | altR _ _ _ h => exact .altR _ _ _ ((ihs a t).mp h)
    · intro h
      cases h with
      | altL _ _ _ h => exact .altL _ _ _ ((ihr a t).mpr h)
      | altR _ _ _ h => exact .altR _ _ _ ((ihs a t).mpr h)
  | cat r s ihr ihs =>
    intro a t
    simp only [deriv]
    by_cases hn : nullable r = true
    · rw [if_pos hn]
      constructor
      · intro h
        cases h with
        | altL _ _ _ h =>
          cases h with
          | cat _ _ t1 t2 h1 h2 =>
            exact .cat r s (a :: t1) t2 ((ihr a t1).mp h1) h2
        | altR _ _ _ h =>
          exact .cat r s [] (a :: t) ((nullable_iff r).mp hn) ((ihs a t).mp h)
      · intro h
        generalize hx : a :: t = x at h
        cases h with
        | cat _ _ t1 t2 h1 h2 =>
          cases t1 with
          | nil =>
            simp only [List.nil_append] at hx
            subst hx
            exact .altR _ _ _ ((ihs a t).mpr h2)
          | cons c t1' =>
            simp only [List.cons_append] at hx
            injection hx with hc ht
            subst hc
            subst ht
            exact .altL _ _ _ (.cat _ s t1' t2 ((ihr _ t1').mpr h1) h2)
    · rw [if_neg hn]
      constructor
      · intro h
        cases h with
        | cat _ _ t1 t2 h1 h2 =>
          exact .cat r s (a :: t1) t2 ((ihr a t1).mp h1) h2
      · intro h
        generalize hx : a :: t = x at h
        cases h with
        | cat _ _ t1 t2 h1 h2 =>
          cases t1 with
          | nil =>
            exact absurd ((nullable_iff r).mpr h1) (by simpa using hn)
          | cons c t1' =>
            simp only [List.cons_append] at hx
            injection hx with hc ht
            subst hc
            subst ht
            exact .cat _ s t1' t2 ((ihr _ t1').mpr h1) h2
  | star r ih =>
    intro a s
    simp only [deriv]
    constructor
    · intro h
      cases h with
      | cat _ _ t u h1 h2 =>
        exact .starCons r a t u ((ih a t).mp h1) h2
    · intro h
      generalize hx : a :: s = x at h
      cases h with
      | starNil => exact nomatch hx
      | starCons _ c t u h1 h2 =>
        injection hx with hc ht
        subst hc
        subst ht
        exact .cat _ _ t u ((ih _ t).mpr h1) h2

theorem rmatch_iff : ∀ (s : List Char) (r : Regex), rmatch r s = true ↔ RMatches r s := by
  intro s
  induction s with
  | nil => intro r; exact nullable_iff r
  | cons c rest ih =>
    intro r
    have : rmatch r (c :: rest) = rmatch (deriv r c) rest := rfl
    rw [this, ih (deriv r c)]
    exact deriv_iff r c rest

/-! ### The filter's compiled glob regex versus the specification's glob -/

theorem pred_match_iff (f : Char → Bool) (t : List Char) :
    RMatches (.pred f) t ↔ ∃ x, t = [x] ∧ f x = true := by
  constructor
  · intro h
    cases h with
    | pred _ c hc => exact ⟨c, rfl, hc⟩
  · rintro ⟨x, rfl, hx⟩
    exact .pred f x hx

theorem star_pred_iff (f : Char → Bool) (s : List Char) :
    RMatches (.star (.pred f)) s ↔ s.all f = true := by
  induction s with
  | nil => exact ⟨fun _ => rfl, fun _ => .starNil _⟩
  | cons c rest ih =>
    constructor
    · intro h
      generalize hx : c :: rest = x at h
      cases h with
      | starNil => exact nomatch hx
      | starCons _ c0 t u h1 h2 =>
        injection hx with hc ht
        subst hc
        cases h1 with
        | pred _ _ hfc =>
          simp only [List.nil_append] at ht
          subst ht
          simp only [List.all_cons, hfc, Bool.true_and]
          exact ih.mp h2
    · intro h
      simp only [List.all_cons, Bool.and_eq_true] at h
      exact RMatches.starCons _ c [] rest (.pred f c h.1) (ih.mpr h.2)

theorem seqR_cons_iff (a : Regex) (l : List Regex) (s : List Char) :
    RMatches (seqR (a :: l)) s ↔ ∃ t u, s = t ++ u ∧ RMatches a t ∧ RMatches (seqR l) u := by
  constructor
  · intro h
    have h' : RMatches (.cat a (seqR l)) s := h
    cases h' with
    | cat _ _ t u h1 h2 => exact ⟨t, u, rfl, h1, h2⟩
  · rintro ⟨t, u, rfl, h1, h2⟩
    exact .cat _ _ t u h1 h2

theorem jsDot_of_nonWs (x : Char) (h : isWsChar x = false) : jsDot x = true := by
  by_cases h1 : x = '\n'
  · subst h1; exact absurd h (by decide)
  by_cases h2 : x = '\r'
  · subst h2; exact absurd h (by decide)
  by_cases h3 : x = ' '
  · subst h3; exact absurd h (by decide)
  by_cases h4 : x = ' '
  · subst h4; exact absurd h (by decide)
  simp [jsDot, h1, h2, h3, h4]

theorem atom_equiv (c : Char) (t : List Char)
    (ht : t.all (fun x => !isWsChar x) = true) :
    (RMatches (fJS c) t ↔ RMatches (fSpec c) t) := by
  have hdot : ∀ x ∈ t, jsDot x = true := by
    intro x hx
    rw [List.all_eq_true] at ht
    exact jsDot_of_nonWs x (by simpa using ht x hx)
  by_cases h1 : c = '*'
  · subst h1
    show RMatches (.star (.pred jsDot)) t ↔ RMatches (.star (.pred (fun _ => true))) t
    rw [star_pred_iff, star_pred_iff]
    constructor
    · intro _
      rw [List.all_eq_true]
      intro x _
      rfl
    · intro _
      rw [List.all_eq_true]
      intro x hx
      exact hdot x hx
  · by_cases h2 : c = '?'
    · subst h2
      show RMatches (.pred jsDot) t ↔ RMatches (.pred (fun _ => true)) t
      rw [pred_match_iff, pred_match_iff]
      constructor
      · rintro ⟨x, rfl, -⟩; exact ⟨x, rfl, rfl⟩
      · rintro ⟨x, rfl, -⟩
        exact ⟨x, rfl, hdot x (by simp)⟩
    · have hj : fJS c = .char c := by simp [fJS, h1, h2]
      have hs : fSpec c = .char c := by simp [fSpec, h1, h2]
      rw [hj, hs]

theorem seqR_glob_equiv (p : List Char) :
    ∀ s : List Char, s.all (fun x => !isWsChar x) = true →
      (RMatches (seqR (p.map fJS)) s ↔ RMatches (seqR (p.map fSpec)) s) := by
  induction p with
  | nil => intro s _; exact Iff.rfl
  | cons c p' ih =>
    intro s hs
    rw [List.map_cons, List.map_cons, seqR_cons_iff, seqR_cons_iff]
    constructor
    · rintro ⟨t, u, rfl, h1, h2⟩
      rw [List.all_append, Bool.and_eq_true] at hs
      exact ⟨t, u, rfl, (atom_equiv c t hs.1).mp h1, (ih u hs.2).mp h2⟩
    · rintro ⟨t, u, rfl, h1, h2⟩
      rw [List.all_append, Bool.and_eq_true] at hs
      exact ⟨t, u, rfl, (atom_equiv c t hs.1).mpr h1, (ih u hs.2).mpr h2⟩

theorem parseAtoms_star_step (acc : List Regex) (a : Regex) (rest : List Char) :
    parseAtoms (a :: acc) ('*' :: rest) = parseAtoms (.star a :: acc) rest := by
  conv_lhs => rw [parseAtoms.eq_def]
  rfl

theorem parseAtoms_dot_step (acc : List Regex) (rest : List Char) :
    parseAtoms acc ('.' :: rest) = parseAtoms (.pred jsDot :: acc) rest := by
  conv_lhs => rw [parseAtoms.eq_def]
  rfl

theorem parseAtoms_globSafe (p : List Char) :
    globSafe p = true → ∀ acc, parseAtoms acc (convertChars p) = some ((p.map fJS).reverse ++ acc) := by
  induction p with
  | nil => intro _ acc; rfl
  | cons c p' ih =>
    intro hsafe acc
    rw [globSafe, List.all_cons, Bool.and_eq_true] at hsafe
    have hsafe' : globSafe p' = true := hsafe.2
    have hbad : badGlobChar c = false := by simpa using hsafe.1
    simp only [badGlobChar, Bool.or_eq_false_iff, decide_eq_false_iff_not] at hbad
    obtain ⟨⟨⟨⟨⟨⟨⟨⟨⟨hplus, hpo⟩, hpc⟩, hbo⟩, hbc⟩, hbro⟩, hbrc⟩, hbar⟩, hcar⟩, hbs⟩ := hbad
    have hmap : ((c :: p').map fJS).reverse ++ acc = (p'.map fJS).reverse ++ (fJS c :: acc) := by
      rw [List.map_cons, List.reverse_cons, List.append_assoc, List.singleton_append]
    by_cases h1 : c = '.'
    · subst h1
      have hstep : parseAtoms acc (convertChars ('.' :: p')) =
          parseAtoms (.char '.' :: acc) (convertChars p') := rfl
      rw [hstep, ih hsafe' (.char '.' :: acc), hmap]
      rfl
    · by_cases h2 : c = '*'
      · subst h2
        rw [show convertChars ('*' :: p') = '.' :: ('*' :: convertChars p') from rfl,
          parseAtoms_dot_step, parseAtoms_star_step,
          ih hsafe' (.star (.pred jsDot) :: acc), hmap]
        rfl
      · by_cases h3 : c = '?'
        · subst h3
          rw [show convertChars ('?' :: p') = '.' :: convertChars p' from rfl,
            parseAtoms_dot_step, ih hsafe' (.pred jsDot :: acc), hmap]
          rfl
        · have hcv : convertChars (c :: p') = c :: convertChars p' := by
            show convChar c ++ convertChars p' = c :: convertChars p'
            rw [convChar, if_neg h1, if_neg h2, if_neg h3, List.singleton_append]
          have hrej : rejectedChar c = false := by
            rw [rejectedChar]
            simp only [Bool.or_eq_false_iff, decide_eq_false_iff_not]
            exact ⟨⟨⟨⟨⟨⟨⟨⟨hpo, hpc⟩, hbo⟩, hbc⟩, hbro⟩, hbrc⟩, hbar⟩, hcar⟩, h3⟩
          have hf : fJS c = .char c := by rw [fJS, if_neg h2, if_neg h3]
          have hstep : parseAtoms acc (c :: convertChars p') =
              parseAtoms (.char c :: acc) (convertChars p') := by
            conv_lhs => rw [parseAtoms.eq_def]
            show (if c = '*' then _ else _) = _
            rw [if_neg h2, if_neg hplus, if_neg hbs, if_neg h1,
              if_neg (show ¬(rejectedChar c = true) by simp [hrej])]
          rw [hcv, hstep, ih hsafe' (.char c :: acc), hmap, hf]

theorem jsRegexOf_globSafe (p : List Char) (h : globSafe p = true) :
    jsRegexOf p = some (seqR (p.map fJS)) := by
  rw [jsRegexOf, parseAtoms_globSafe p h []]
  simp only [List.append_nil, List.reverse_reverse]

theorem glob_rule3_equiv (pattern path : List Char) (hp : globSafe pattern = true)
    (hw : path.all (fun x => !isWsChar x) = true) :
    (match jsRegexOf pattern with | some r => rmatch r path | none => false) =
      specGlobMatch pattern path := by
  rw [jsRegexOf_globSafe pattern hp]
  show rmatch (seqR (pattern.map fJS)) path = specGlobMatch pattern path
  rw [specGlobMatch]
  have hiff := (rmatch_iff path (seqR (pattern.map fJS))).trans
    ((seqR_glob_equiv pattern path hw).trans
      (rmatch_iff path (seqR (pattern.map fSpec))).symm)
  cases hA : rmatch (seqR (pattern.map fJS)) path <;>
    cases hB : rmatch (seqR (pattern.map fSpec)) path <;> simp_all

/-! ### Basename versus the final path component -/

theorem takeWhile_append_of_all {q : Char → Bool} (l l2 : List Char) (h : l.all q = true) :
    (l ++ l2).takeWhile q = l ++ l2.takeWhile q := by
  induction l with
  | nil => rfl
  | cons c l' ih =>
    rw [List.all_cons, Bool.and_eq_true] at h
    simp only [List.cons_append, List.takeWhile_cons, h.1, if_true, ih h.2]

theorem takeWhile_append_of_stop {q : Char → Bool} (l l2 : List Char) (h : l.all q = false) :
    (l ++ l2).takeWhile q = l.takeWhile q := by
  induction l with
  | nil => simp [List.all_nil] at h
  | cons c l' ih =>
    rw [List.all_cons] at h
    cases hc : q c with
    | false =>
      simp only [List.cons_append, List.takeWhile_cons, hc, Bool.false_eq_true, if_false]
    | true =>
      rw [hc, Bool.true_and] at h
      simp only [List.cons_append, List.takeWhile_cons, hc, ih h]

theorem all_ne_of_not_any (l : List Char) (h : l.any (fun c => c == '/') = false) :
    l.all (fun c => c != '/') = true := by
  induction l with
  | nil => rfl
  | cons c l' ih =>
    rw [List.any_cons, Bool.or_eq_false_iff] at h
    rw [List.all_cons, Bool.and_eq_true]
    exact ⟨by simp [bne, h.1], ih h.2⟩

theorem all_reverse_ch (q : Char → Bool) (l : List Char) : l.reverse.all q = l.all q := by
  induction l with
  | nil => rfl
  | cons c l' ih =>
    simp [List.reverse_cons, List.all_append, ih, List.all_cons, Bool.and_comm]

theorem rev_all_ne_false_of_any (l : List Char) (h : l.any (fun c => c == '/') = true) :
    l.reverse.all (fun c => c != '/') = false := by
  rw [all_reverse_ch]
  rw [List.any_eq_true] at h
  obtain ⟨x, hx, hx'⟩ := h
  cases hall : l.all (fun c => c != '/') with
  | false => rfl
  | true =>
    rw [List.all_eq_true] at hall
    have := hall x hx
    simp only [bne, Bool.not_eq_true'] at this
    rw [this] at hx'
    exact nomatch hx'

theorem specBasename_cons_of_any (c : Char) (p' : List Char)
    (h : p'.any (fun x => x == '/') = true) :
    specBasename (c :: p') = specBasename p' := by
  rw [specBasename, specBasename, List.reverse_cons,
    takeWhile_append_of_stop _ _ (rev_all_ne_false_of_any p' h)]

theorem specBasename_cons_of_none (c : Char) (p' : List Char)
    (h : p'.any (fun x => x == '/') = false) :
    specBasename (c :: p') = if c == '/' then p' else c :: p' := by
  have hall : p'.reverse.all (fun x => x != '/') = true := by
    rw [all_reverse_ch]; exact all_ne_of_not_any p' h
  rw [specBasename, List.reverse_cons, takeWhile_append_of_all _ _ hall]
  cases hc : c == '/' with
  | true =>
    have : c = '/' := by simpa using hc
    subst this
    simp [List.takeWhile]
  | false =>
    have hb : (fun x => x != '/') c = true := by simp [bne, hc]
    simp [List.takeWhile_cons, hb]

theorem basenameAux_eq (p : List Char) : ∀ acc,
    basenameAux acc p = if p.any (fun c => c == '/') then specBasename p else acc.reverse ++ p := by
  induction p with
  | nil =>
    intro acc
    show acc.reverse =
      if ([] : List Char).any (fun c => c == '/') then specBasename [] else acc.reverse ++ []
    rw [List.any_nil, if_neg (by simp), List.append_nil]
  | cons c p' ih =>
    intro acc
    rw [basenameAux]
    cases hc : c == '/' with
    | true =>
      rw [if_pos rfl]
      have hcp : (c :: p').any (fun x => x == '/') = true := by
        rw [List.any_cons, hc, Bool.true_or]
      rw [hcp, if_pos rfl] at *
      rw [ih []]
      cases hp' : p'.any (fun x => x == '/') with
      | true =>
        rw [if_pos rfl, specBasename_cons_of_any c p' hp']
      | false =>
        rw [if_neg (by simp), specBasename_cons_of_none c p' hp', hc, if_pos rfl,
          List.reverse_nil, List.nil_append]
    | false =>
      rw [if_neg (by simp)]
      rw [ih (c :: acc)]
      have hcp : (c :: p').any (fun x => x == '/') = p'.any (fun x => x == '/') := by
        rw [List.any_cons, hc, Bool.false_or]
      rw [hcp]
      cases hp' : p'.any (fun x => x == '/') with
      | true =>
        rw [if_pos rfl, if_pos rfl, specBasename_cons_of_any c p' hp']
      | false =>
        rw [if_neg (by simp), if_neg (by simp), List.reverse_cons, List.append_assoc,
          List.singleton_append]

theorem basename_eq_specBasename (p : List Char) : basename p = specBasename p := by
  rw [basename, basenameAux_eq p []]
  cases hp : p.any (fun c => c == '/') with
  | true => rw [if_pos rfl]
  | false =>
    rw [if_neg (by simp), List.reverse_nil, List.nil_append]
    have hall : p.reverse.all (fun x => x != '/') = true := by
      rw [all_reverse_ch]; exact all_ne_of_not_any p hp
    rw [specBasename, List.takeWhile_eq_self_iff.mpr ?_, List.reverse_reverse]
    intro x hx
    rw [List.all_eq_true] at hall
    exact hall x hx

/-! ### Splitting on the section marker and rejoining -/

theorem isPrefixOf_iff_append (l : List Char) :
    ∀ s : List Char, l.isPrefixOf s = true ↔ ∃ t, s = l ++ t := by
  induction l with
  | nil =>
    intro s
    constructor
    · intro _; exact ⟨s, rfl⟩
    · intro _
      cases s <;> rfl
  | cons c l' ih =>
    intro s
    cases s with
    | nil =>
      constructor
      · intro h; exact nomatch h
      · rintro ⟨t, ht⟩; exact nomatch ht
    | cons d s' =>
      have he : (c :: l').isPrefixOf (d :: s') = ((c == d) && l'.isPrefixOf s') := rfl
      rw [he, Bool.and_eq_true]
      constructor
      · rintro ⟨h1, h2⟩
        obtain ⟨t, ht⟩ := (ih s').mp h2
        have hcd : c = d := by simpa using h1
        exact ⟨t, by rw [List.cons_append, ← hcd, ht]⟩
      · rintro ⟨t, ht⟩
        rw [List.cons_append] at ht
        injection ht with h1 h2
        exact ⟨by simp [h1], (ih s').mpr ⟨t, h2⟩⟩

theorem containsSeq_nil_eq_false (sep : List Char) (hsep : sep ≠ []) :
    containsSeq sep [] = false := by
  cases sep with
  | nil => exact absurd rfl hsep
  | cons a as => rfl

theorem containsSeq_cons (sep : List Char) (c : Char) (r : List Char) :
    containsSeq sep (c :: r) = (sep.isPrefixOf (c :: r) || containsSeq sep r) := rfl

theorem splitOnAux_nil (sep : List Char) (n : Nat) : splitOnAux sep n [] = [[]] := by
  cases n <;> rfl

theorem splitOnAux_zero_cons (sep : List Char) (c : Char) (rest : List Char) :
    splitOnAux sep 0 (c :: rest) = [c :: rest] := by
  conv_lhs => rw [splitOnAux.eq_def]

theorem splitOnAux_cons (sep : List Char) (n : Nat) (c : Char) (rest : List Char) :
    splitOnAux sep (n + 1) (c :: rest) =
      if sep.isPrefixOf (c :: rest) then
        [] :: splitOnAux sep n (List.drop sep.length (c :: rest))
      else
        match splitOnAux sep n rest with
        | [] => [[c]]
        | p :: ps => (c :: p) :: ps := by
  conv_lhs => rw [splitOnAux.eq_def]

theorem splitOnAux_congr (sep : List Char) (hsep : sep ≠ []) :
    ∀ n m s, s.length ≤ n → s.length ≤ m → splitOnAux sep n s = splitOnAux sep m s := by
  intro n
  induction n with
  | zero =>
    intro m s hn _
    have hs : s = [] := by
      cases s with
      | nil => rfl
      | cons c r => simp at hn
    subst hs
    rw [splitOnAux_nil, splitOnAux_nil]
  | succ n ih =>
    intro m s hn hm
    cases s with
    | nil => rw [splitOnAux_nil, splitOnAux_nil]
    | cons c rest =>
      cases m with
      | zero => simp at hm
      | succ m' =>
        rw [splitOnAux_cons, splitOnAux_cons]
        have hlen : 0 < sep.length := List.length_pos.mpr hsep
        rw [List.length_cons] at hn hm
        cases hpre : sep.isPrefixOf (c :: rest) with
        | true =>
          rw [if_pos rfl, if_pos rfl]
          have hdl : (List.drop sep.length (c :: rest)).length = rest.length + 1 - sep.length := by
            rw [List.length_drop, List.length_cons]
          rw [ih m' (List.drop sep.length (c :: rest)) (by omega) (by omega)]
        | false =>
          rw [if_neg (by simp), if_neg (by simp)]
          rw [ih m' rest (by omega) (by omega)]

theorem splitOnL_nil (sep : List Char) : splitOnL sep [] = [[]] := rfl

theorem splitOnL_pos (sep : List Char) (hsep : sep ≠ []) (s : List Char) (hs : s ≠ [])
    (h : sep.isPrefixOf s = true) :
    splitOnL sep s = [] :: splitOnL sep (List.drop sep.length s) := by
  cases s with
  | nil => exact absurd rfl hs
  | cons c rest =>
    show splitOnAux sep (c :: rest).length (c :: rest) = _
    rw [List.length_cons, splitOnAux_cons, if_pos h]
    have hlen : 0 < sep.length := List.length_pos.mpr hsep
    have hdl : (List.drop sep.length (c :: rest)).length = rest.length + 1 - sep.length := by
      rw [List.length_drop, List.length_cons]
    rw [splitOnAux_congr sep hsep rest.length (List.drop sep.length (c :: rest)).length
      (List.drop sep.length (c :: rest)) (by omega) (by omega)]
    rfl

theorem splitOnL_neg (sep : List Char) (c : Char) (rest : List Char)
    (h : sep.isPrefixOf (c :: rest) = false) :
    splitOnL sep (c :: rest) =
      match splitOnL sep rest with
      | [] => [[c]]
      | p :: ps => (c :: p) :: ps := by
  show splitOnAux sep (c :: rest).length (c :: rest) = _
  rw [List.length_cons, splitOnAux_cons, if_neg (by simp [h])]
  rfl

theorem splitOnAux_ne_nil (sep : List Char) : ∀ n s, splitOnAux sep n s ≠ [] := by
  intro n
  induction n with
  | zero =>
    intro s
    cases s with
    | nil => rw [splitOnAux_nil]; simp
    | cons c r => rw [splitOnAux_zero_cons]; simp
  | succ n ih =>
    intro s
    cases s with
    | nil => rw [splitOnAux_nil]; simp
    | cons c r =>
      rw [splitOnAux_cons]
      cases hpre : sep.isPrefixOf (c :: r) with
      | true => simp
      | false =>
        rw [if_neg (by simp)]
        cases h : splitOnAux sep n r with
        | nil => simp
        | cons p ps => simp

theorem splitOnL_ne_nil (sep s : List Char) : splitOnL sep s ≠ [] :=
  splitOnAux_ne_nil sep s.length s

theorem splitOnAux_head_prefix (sep : List Char) :
    ∀ n s p ps, splitOnAux sep n s = p :: ps → ∃ t, s = p ++ t := by
  intro n
  induction n with
  | zero =>
    intro s p ps h
    cases s with
    | nil =>
      rw [splitOnAux_nil] at h
      injection h with h1 _
      exact ⟨[], by rw [← h1]; rfl⟩
    | cons c r =>
      rw [splitOnAux_zero_cons] at h
      injection h with h1 _
      exact ⟨[], by rw [← h1, List.append_nil]⟩
  | succ n ih =>
    intro s p ps h
    cases s with
    | nil =>
      rw [splitOnAux_nil] at h
      injection h with h1 _
      exact ⟨[], by rw [← h1]; rfl⟩
    | cons c r =>
      rw [splitOnAux_cons] at h
      cases hpre : sep.isPrefixOf (c :: r) with
      | true =>
        rw [hpre, if_pos rfl] at h
        injection h with h1 _
        exact ⟨c :: r, by rw [← h1]; rfl⟩
      | false =>
        rw [hpre, if_neg (by simp)] at h
        cases hsp : splitOnAux sep n r with
        | nil => exact absurd hsp (splitOnAux_ne_nil sep n r)
        | cons q qs =>
          rw [hsp] at h
          injection h with h1 _
          obtain ⟨t, ht⟩ := ih r q qs hsp
          exact ⟨t, by rw [← h1, List.cons_append, ← ht]⟩

theorem splitOnAux_partsFree (sep : List Char) (hsep : sep ≠ []) :
    ∀ n s, s.length ≤ n → ∀ p ∈ splitOnAux sep n s, containsSeq sep p = false := by
  intro n
  induction n with
  | zero =>
    intro s hn p hp
    have hs : s = [] := by
      cases s with
      | nil => rfl
      | cons c r => simp at hn
    subst hs
    rw [splitOnAux_nil] at hp
    rw [List.mem_singleton] at hp
    subst hp
    exact containsSeq_nil_eq_false sep hsep
  | succ n ih =>
    intro s hn p hp
    cases s with
    | nil =>
      rw [splitOnAux_nil] at hp
      rw [List.mem_singleton] at hp
      subst hp
      exact containsSeq_nil_eq_false sep hsep
    | cons c r =>
      rw [List.length_cons] at hn
      have hlen : 0 < sep.length := List.length_pos.mpr hsep
      rw [splitOnAux_cons] at hp
      cases hpre : sep.isPrefixOf (c :: r) with
      | true =>
        rw [hpre, if_pos rfl] at hp
        rcases List.mem_cons.mp hp with h | h
        · subst h
          exact containsSeq_nil_eq_false sep hsep
        · refine ih (List.drop sep.length (c :: r)) ?_ p h
          rw [List.length_drop, List.length_cons]
          omega
      | false =>
        rw [hpre, if_neg (by simp)] at hp
        cases hsp : splitOnAux sep n r with
        | nil => exact absurd hsp (splitOnAux_ne_nil sep n r)
        | cons q qs =>
          rw [hsp] at hp
          rcases List.mem_cons.mp hp with h | h
          · subst h
            rw [containsSeq_cons, Bool.or_eq_false_iff]
            constructor
            · cases hb : sep.isPrefixOf (c :: q) with
              | false => rfl
              | true =>
                obtain ⟨t, ht⟩ := (isPrefixOf_iff_append sep (c :: q)).mp hb
                obtain ⟨t2, ht2⟩ := splitOnAux_head_prefix sep n r q qs hsp
                have hpre' : sep.isPrefixOf (c :: r) = true := by
                  apply (isPrefixOf_iff_append sep (c :: r)).mpr
                  refine ⟨t ++ t2, ?_⟩
                  rw [ht2, ← List.append_assoc, ← ht, List.cons_append]
                rw [hpre'] at hpre
                exact nomatch hpre
            · have hq : q ∈ splitOnAux sep n r := by
                rw [hsp]; exact List.mem_cons_self q qs
              exact ih r (by omega) q hq
          · have hpmem : p ∈ splitOnAux sep n r := by
              rw [hsp]; exact List.mem_cons_of_mem q h
            exact ih r (by omega) p hpmem

theorem joinSep_cons2 (sep p q : List Char) (qs : List (List Char)) :
    joinSep sep (p :: q :: qs) = p ++ (sep ++ joinSep sep (q :: qs)) := by
  show p ++ (((q :: qs).map fun s => sep ++ s).flatten) = _
  rw [List.map_cons, List.flatten_cons, List.append_assoc]
  rfl

theorem joinSep_splitOnAux (sep : List Char) (hsep : sep ≠ []) :
    ∀ n s, s.length ≤ n → joinSep sep (splitOnAux sep n s) = s := by
  intro n
  induction n with
  | zero =>
    intro s hn
    have hs : s = [] := by
      cases s with
      | nil => rfl
      | cons c r => simp at hn
    subst hs
    rw [splitOnAux_nil]
    rfl
  | succ n ih =>
    intro s hn
    cases s with
    | nil => rw [splitOnAux_nil]; rfl
    | cons c rest =>
      rw [List.length_cons] at hn
      have hlen : 0 < sep.length := List.length_pos.mpr hsep
      rw [splitOnAux_cons]
      cases hpre : sep.isPrefixOf (c :: rest) with
      | true =>
        rw [if_pos rfl]
        obtain ⟨t, ht⟩ := (isPrefixOf_iff_append sep (c :: rest)).mp hpre
        have hdrop : List.drop sep.length (c :: rest) = t := by
          rw [ht, List.drop_left]
        cases hsp : splitOnAux sep n (List.drop sep.length (c :: rest)) with
        | nil => exact absurd hsp (splitOnAux_ne_nil sep n _)
        | cons q qs =>
          rw [joinSep_cons2]
          rw [List.nil_append, ← hsp]
          have hb : (List.drop sep.length (c :: rest)).length ≤ n := by
            rw [List.length_drop, List.length_cons]
            omega
          rw [ih (List.drop sep.length (c :: rest)) hb, hdrop, ht]
      | false =>
        rw [if_neg (by simp)]
        cases hsp : splitOnAux sep n rest with
        | nil => exact absurd hsp (splitOnAux_ne_nil sep n rest)
        | cons q qs =>
          show joinSep sep ((c :: q) :: qs) = c :: rest
          have he : joinSep sep ((c :: q) :: qs) = c :: joinSep sep (q :: qs) := by
            show (c :: q) ++ ((qs.map fun s => sep ++ s).flatten) = _
            rw [List.cons_append]
            rfl
          rw [he, ← hsp, ih rest (by omega)]

theorem joinSep_splitOnL (sep : List Char) (hsep : sep ≠ []) (s : List Char) :
    joinSep sep (splitOnL sep s) = s :=
  joinSep_splitOnAux sep hsep s.length s (Nat.le_refl _)

theorem splitOnL_of_not_contains (sep : List Char) (hsep : sep ≠ []) :
    ∀ s, containsSeq sep s = false → splitOnL sep s = [s] := by
  intro s
  induction s with
  | nil => intro _; rfl
  | cons c r ih =>
    intro h
    rw [containsSeq_cons, Bool.or_eq_false_iff] at h
    rw [splitOnL_neg sep c r h.1, ih h.2]

theorem splitOnL_append_sep (sep : List Char) (hsep : sep ≠ []) (hbf : borderFree sep) :
    ∀ p t, containsSeq sep p = false →
      splitOnL sep (p ++ (sep ++ t)) = p :: splitOnL sep t := by
  intro p
  induction p with
  | nil =>
    intro t _
    rw [List.nil_append]
    have hne : sep ++ t ≠ [] := by
      intro h
      exact hsep (List.append_eq_nil.mp h).1
    rw [splitOnL_pos sep hsep (sep ++ t) hne
      ((isPrefixOf_iff_append sep (sep ++ t)).mpr ⟨t, rfl⟩), List.drop_left]
  | cons c p' ih =>
    intro t hc
    rw [containsSeq_cons, Bool.or_eq_false_iff] at hc
    rw [List.cons_append]
    have hnp : sep.isPrefixOf (c :: (p' ++ (sep ++ t))) = false := by
      cases hb : sep.isPrefixOf (c :: (p' ++ (sep ++ t))) with
      | false => rfl
      | true =>
        exfalso
        obtain ⟨u, hu⟩ := (isPrefixOf_iff_append sep _).mp hb
        rw [← List.cons_append] at hu
        by_cases hlen : sep.length ≤ (c :: p').length
        · have htake : sep = (c :: p').take sep.length := by
            have h1 : sep = ((c :: p') ++ (sep ++ t)).take sep.length := by
              rw [hu, List.take_left]
            conv_lhs => rw [h1]
            rw [List.take_append_eq_append_take,
              Nat.sub_eq_zero_of_le hlen, List.take_zero, List.append_nil]
          have hp : sep.isPrefixOf (c :: p') = true := by
            apply (isPrefixOf_iff_append sep (c :: p')).mpr
            refine ⟨(c :: p').drop sep.length, ?_⟩
            conv_lhs => rw [← List.take_append_drop sep.length (c :: p')]
            rw [← htake]
          rw [hp] at hc
          exact nomatch hc.1
        · push_neg at hlen
          have hlt : (c :: p').length < sep.length := hlen
          have hj1 : 0 < sep.length - (c :: p').length := by omega
          have hj2 : sep.length - (c :: p').length < sep.length := by
            have := List.length_cons c p'
            omega
          have htake : sep = (c :: p') ++ sep.take (sep.length - (c :: p').length) := by
            have h1 : sep = ((c :: p') ++ (sep ++ t)).take sep.length := by
              rw [hu, List.take_left]
            conv_lhs => rw [h1]
            rw [List.take_append_eq_append_take,
              List.take_of_length_le (show (c :: p').length ≤ sep.length by omega),
              List.take_append_of_le_length
                (show sep.length - (c :: p').length ≤ sep.length by omega)]
          have hdrop : sep.drop (sep.length - (sep.length - (c :: p').length)) =
              sep.take (sep.length - (c :: p').length) := by
            have hsub : sep.length - (sep.length - (c :: p').length) = (c :: p').length := by
              omega
            rw [hsub]
            conv_lhs => rw [htake]
            rw [List.drop_left]
          exact hbf (sep.length - (c :: p').length) hj2 hj1 hdrop.symm
    rw [splitOnL_neg sep c (p' ++ (sep ++ t)) hnp, ih t hc.2]

theorem splitOnL_joinSep (sep : List Char) (hsep : sep ≠ []) (hbf : borderFree sep) :
    ∀ parts : List (List Char), parts ≠ [] →
      (∀ p ∈ parts, containsSeq sep p = false) →
      splitOnL sep (joinSep sep parts) = parts := by
  intro parts
  induction parts with
  | nil => intro h _; exact absurd rfl h
  | cons p parts' ih =>
    intro _ hfree
    cases parts' with
    | nil =>
      have he : joinSep sep [p] = p := by
        show p ++ (([] : List (List Char)).map fun s => sep ++ s).flatten = p
        rw [List.map_nil, List.flatten_nil, List.append_nil]
      rw [he]
      exact splitOnL_of_not_contains sep hsep p (hfree p (List.mem_cons_self _ _))
    | cons q qs =>
      rw [joinSep_cons2, splitOnL_append_sep sep hsep hbf p _
        (hfree p (List.mem_cons_self _ _)),
        ih (by simp) (fun x hx => hfree x (List.mem_cons_of_mem _ hx))]

/-! ### The diff filter -/

theorem marker_ne_nil : marker ≠ [] := by decide

theorem marker_borderFree : borderFree marker := by
  unfold borderFree
  decide

theorem filter_filter_same {α : Type} (f : α → Bool) (l : List α) :
    (l.filter f).filter f = l.filter f := by
  induction l with
  | nil => rfl
  | cons x xs ih =>
    cases hx : f x with
    | true => rw [List.filter_cons, if_pos (by simp [hx]), List.filter_cons,
        if_pos (by simp [hx]), ih]
    | false => rw [List.filter_cons, if_neg (by simp [hx]), ih]

theorem filter_eq_nil_of_all_false {α : Type} (f : α → Bool) (l : List α)
    (h : ∀ x ∈ l, f x = false) : l.filter f = [] := by
  induction l with
  | nil => rfl
  | cons x xs ih =>
    rw [List.filter_cons, if_neg (by simp [h x (List.mem_cons_self _ _)])]
    exact ih (fun y hy => h y (List.mem_cons_of_mem _ hy))

theorem filterCore_eq (diff : List Char) (patterns : List (List Char))
    (hP : patterns.isEmpty = false) (s0 : List Char) (rest : List (List Char))
    (hsplit : splitOnL marker diff = s0 :: rest) :
    filterCore diff patterns =
      if (joinSep marker (s0 :: rest.filter (keepSection patterns))).isEmpty = true
      then placeholderDiff.toList
      else joinSep marker (s0 :: rest.filter (keepSection patterns)) := by
  unfold filterCore
  rw [hP, if_neg (by simp), hsplit]

set_option maxRecDepth 100000 in
theorem placeholder_toList_split :
    splitOnL marker placeholderDiff.toList = [[], placeholderDiff.toList.drop 10] := by
  decide

set_option maxRecDepth 100000 in
theorem placeholder_toList_ne_nil : placeholderDiff.toList ≠ [] := by decide

theorem filterCore_placeholder (patterns : List (List Char))
    (hP : patterns.isEmpty = false) :
    filterCore placeholderDiff.toList patterns = placeholderDiff.toList := by
  rw [filterCore_eq placeholderDiff.toList patterns hP [] [placeholderDiff.toList.drop 10]
    placeholder_toList_split]
  have hj : joinSep marker ([] :: [placeholderDiff.toList.drop 10]) =
      placeholderDiff.toList := by
    have h := joinSep_splitOnL marker marker_ne_nil placeholderDiff.toList
    rw [placeholder_toList_split] at h
    exact h
  cases hk : keepSection patterns (placeholderDiff.toList.drop 10) with
  | true =>
    have hfil : List.filter (keepSection patterns) [placeholderDiff.toList.drop 10] =
        [placeholderDiff.toList.drop 10] := by
      rw [List.filter_cons, if_pos hk]
      rfl
    rw [hfil, hj]
    rw [if_neg (show ¬(placeholderDiff.toList.isEmpty = true) by
      rw [List.isEmpty_iff]; exact placeholder_toList_ne_nil)]
  | false =>
    have hfil : List.filter (keepSection patterns) [placeholderDiff.toList.drop 10] =
        ([] : List (List Char)) := by
      rw [List.filter_cons, if_neg (show ¬(keepSection patterns
        (placeholderDiff.toList.drop 10) = true) by rw [hk]; simp)]
      rfl
    have hjo : joinSep marker ([] :: ([] : List (List Char))) = [] := rfl
    rw [hfil, hjo, if_pos (show ([] : List Char).isEmpty = true from rfl)]

theorem filterCore_splitOnL_output (dl : List Char) (pl : List (List Char))
    (hP : pl.isEmpty = false) (s0 : List Char) (rest : List (List Char))
    (hsplit : splitOnL marker dl = s0 :: rest) :
    splitOnL marker (joinSep marker (s0 :: rest.filter (keepSection pl))) =
      s0 :: rest.filter (keepSection pl) := by
  apply splitOnL_joinSep marker marker_ne_nil marker_borderFree
  · simp
  · intro p hp
    rcases List.mem_cons.mp hp with h | h
    · subst h
      have hmem : p ∈ splitOnL marker dl := by
        rw [hsplit]; exact List.mem_cons_self _ _
      exact splitOnAux_partsFree marker marker_ne_nil dl.length dl (Nat.le_refl _) p hmem
    · have hrest : p ∈ rest := (List.mem_filter.mp h).1
      have hmem : p ∈ splitOnL marker dl := by
        rw [hsplit]; exact List.mem_cons_of_mem _ hrest
      exact splitOnAux_partsFree marker marker_ne_nil dl.length dl (Nat.le_refl _) p hmem

theorem filterCore_idem (dl : List Char) (pl : List (List Char)) :
    filterCore (filterCore dl pl) pl = filterCore dl pl := by
  cases hP : pl.isEmpty with
  | true =>
    have h1 : filterCore dl pl = dl := by
      unfold filterCore; rw [hP, if_pos rfl]
    rw [h1]
    unfold filterCore; rw [hP, if_pos rfl]
  | false =>
    cases hsplit : splitOnL marker dl with
    | nil => exact absurd hsplit (splitOnL_ne_nil marker dl)
    | cons s0 rest =>
      have h1 := filterCore_eq dl pl hP s0 rest hsplit
      cases hemp : (joinSep marker (s0 :: rest.filter (keepSection pl))).isEmpty with
      | true =>
        rw [h1, hemp, if_pos rfl]
        exact filterCore_placeholder pl hP
      | false =>
        rw [h1, hemp, if_neg (by simp)]
        have hsplit2 := filterCore_splitOnL_output dl pl hP s0 rest hsplit
        have h2 := filterCore_eq (joinSep marker (s0 :: rest.filter (keepSection pl))) pl hP
          s0 (rest.filter (keepSection pl)) hsplit2
        rw [h2, filter_filter_same (keepSection pl) rest, hemp, if_neg (by simp)]

theorem toList_mk (l : List Char) : (String.mk l).toList = l := rfl

theorem mk_toList (s : String) : String.mk s.toList = s := rfl

theorem string_ne_empty_iff (s : String) : s ≠ "" ↔ s.toList ≠ [] := by
  constructor
  · intro h hl
    exact h (String.ext (by simpa using hl))
  · intro h hs
    apply h
    rw [hs]
    rfl

/-! ### Score extraction helpers -/

theorem digit_sub_le (c : Char) (h : c.isDigit = true) : c.toNat - '0'.toNat ≤ 9 := by
  rw [Char.isDigit, Bool.and_eq_true, decide_eq_true_eq, decide_eq_true_eq] at h
  have h2 : c.val.toNat ≤ (57 : UInt32).toNat := h.2
  have h57 : (57 : UInt32).toNat = 57 := rfl
  have h0 : '0'.toNat = 48 := rfl
  show c.val.toNat - '0'.toNat ≤ 9
  omega

theorem digitsToNatAux_lt (ds : List Char) :
    ∀ a, ds.all Char.isDigit = true → digitsToNatAux a ds < (a + 1) * 10 ^ ds.length := by
  induction ds with
  | nil =>
    intro a _
    show a < (a + 1) * 10 ^ 0
    simp
  | cons c r ih =>
    intro a h
    rw [List.all_cons, Bool.and_eq_true] at h
    have hd := digit_sub_le c h.1
    have h1 := ih (10 * a + (c.toNat - '0'.toNat)) h.2
    show digitsToNatAux (10 * a + (c.toNat - '0'.toNat)) r < (a + 1) * 10 ^ (r.length + 1)
    have h2 : (10 * a + (c.toNat - '0'.toNat) + 1) * 10 ^ r.length ≤
        (a + 1) * 10 ^ (r.length + 1) := by
      rw [pow_succ]
      have h3 : 10 * a + (c.toNat - '0'.toNat) + 1 ≤ (a + 1) * 10 := by omega
      calc (10 * a + (c.toNat - '0'.toNat) + 1) * 10 ^ r.length
          ≤ ((a + 1) * 10) * 10 ^ r.length := Nat.mul_le_mul_right _ h3
        _ = (a + 1) * (10 ^ r.length * 10) := by ring
    omega

theorem digitsToNat_le_999 (ds : List Char) (hall : ds.all Char.isDigit = true)
    (hlen : ds.length ≤ 3) : digitsToNat ds ≤ 999 := by
  have h := digitsToNatAux_lt ds 0 hall
  have hp : (10 : Nat) ^ ds.length ≤ 10 ^ 3 := Nat.pow_le_pow_right (by omega) hlen
  have h1000 : (10 : Nat) ^ 3 = 1000 := by norm_num
  show digitsToNatAux 0 ds ≤ 999
  omega

theorem findDigitsSameLine_cons (c : Char) (r : List Char) :
    findDigitsSameLine (c :: r) =
      if c.isDigit = true then some (c :: (r.takeWhile Char.isDigit).take 2)
      else if isLineTerm c = true then none else findDigitsSameLine r := by
  conv_lhs => rw [findDigitsSameLine.eq_def]

theorem findDigitsSameLine_spec :
    ∀ (l : List Char) (ds : List Char), findDigitsSameLine l = some ds →
      ds.all Char.isDigit = true ∧ ds.length ≤ 3 := by
  intro l
  induction l with
  | nil => intro ds h; exact nomatch h
  | cons c r ih =>
    intro ds h
    rw [findDigitsSameLine_cons] at h
    by_cases hc : c.isDigit = true
    · rw [if_pos hc] at h
      injection h with h1
      subst h1
      constructor
      · rw [List.all_cons, Bool.and_eq_true]
        refine ⟨hc, ?_⟩
        rw [List.all_eq_true]
        intro x hx
        exact List.mem_takeWhile_imp (List.mem_of_mem_take hx)
      · rw [List.length_cons]
        have := List.length_take_le 2 (r.takeWhile Char.isDigit)
        omega
    · rw [if_neg hc] at h
      by_cases hl : isLineTerm c = true
      · rw [if_pos hl] at h
        exact nomatch h
      · rw [if_neg hl] at h
        exact ih ds h

theorem numericScoreScan_cons (c : Char) (r : List Char) :
    numericScoreScan (c :: r) =
      if scoreAt (c :: r) = true then
        match findDigitsSameLine (r.drop 4) with
        | some ds => some (digitsToNat ds)
        | none => numericScoreScan r
      else numericScoreScan r := by
  conv_lhs => rw [numericScoreScan.eq_def]

theorem numericScoreScan_spec :
    ∀ (l : List Char) (n : Nat), numericScoreScan l = some n →
      ∃ tl ds, findDigitsSameLine tl = some ds ∧ n = digitsToNat ds := by
  intro l
  induction l with
  | nil => intro n h; exact nomatch h
  | cons c r ih =>
    intro n h
    rw [numericScoreScan_cons] at h
    by_cases hs : scoreAt (c :: r) = true
    · rw [if_pos hs] at h
      cases hfd : findDigitsSameLine (r.drop 4) with
      | some ds =>
        rw [hfd] at h
        have h' : (some (digitsToNat ds) : Option Nat) = some n := h
        injection h' with h''
        exact ⟨r.drop 4, ds, hfd, h''.symm⟩
      | none =>
        rw [hfd] at h
        exact ih n h
    · rw [if_neg hs] at h
      exact ih n h

theorem matchesPattern_nil_pattern (path : List Char) : matchesPattern path [] = true := by
  unfold matchesPattern
  have h1 : ([] : List Char).isSuffixOf path = true := by
    show ([] : List Char).reverse.isPrefixOf path.reverse = true
    rw [List.reverse_nil]
    exact (isPrefixOf_iff_append [] path.reverse).mpr ⟨path.reverse, rfl⟩
  rw [h1]
  rfl

/-! ### Claims -/

set_option maxRecDepth 1000000 in
/-- Claim C1 (corrected), counterexample to the claim as stated: a diff whose
every file section is excluded by the patterns, but whose text before the
first marker is non-empty, comes back as that prefix text, not as the
placeholder diff. -/
theorem filterExcludedFiles_allExcluded_counterexample :
    allSectionsExcluded "X\ndiff --git a/foo.lock b/foo.lock" ["foo.lock"] = true ∧
    filterExcludedFiles "X\ndiff --git a/foo.lock b/foo.lock" ["foo.lock"] = "X\n" ∧
    "X\n" ≠ placeholderDiff :=
  ⟨by decide, by decide, by decide⟩

/-- Claim C1 (amended): for a non-empty pattern list, if every section after
the first marker has an extractable path matching some pattern, and the text
before the first marker is empty, then filterExcludedFiles returns the fixed
no-op placeholder diff. -/
theorem filterExcludedFiles_allExcluded_placeholder (d : String) (P : List String)
    (hP : P ≠ []) (hall : allSectionsExcluded d P = true) (hh : headSection d = []) :
    filterExcludedFiles d P = placeholderDiff := by
  have hPb : (P.map String.toList).isEmpty = false := by
    cases P with
    | nil => exact absurd rfl hP
    | cons a as => rfl
  cases hsplit : splitOnL marker d.toList with
  | nil => exact absurd hsplit (splitOnL_ne_nil marker d.toList)
  | cons s0 rest =>
    have hs0 : s0 = [] := by
      have h := hh
      rw [headSection, hsplit] at h
      exact h
    subst hs0
    have hall' : rest.all (fun s =>
        match sectionPath s with
        | some p => (P.map String.toList).any (fun pat => matchesPattern p pat)
        | none => false) = true := by
      have h := hall
      unfold allSectionsExcluded at h
      rw [hsplit] at h
      exact h
    have hkeep : ∀ x ∈ rest, keepSection (P.map String.toList) x = false := by
      intro x hx
      rw [List.all_eq_true] at hall'
      have hfx := hall' x hx
      cases hsp : sectionPath x with
      | none =>
        rw [hsp] at hfx
        exact Bool.noConfusion hfx
      | some p =>
        rw [hsp] at hfx
        have hany : (P.map String.toList).any (fun pat => matchesPattern p pat) = true := hfx
        unfold keepSection
        rw [hsp]
        show (!((P.map String.toList).any fun pat => matchesPattern p pat)) = false
        rw [hany]
        rfl
    have hfil : rest.filter (keepSection (P.map String.toList)) = [] :=
      filter_eq_nil_of_all_false _ rest hkeep
    show String.mk (filterCore d.toList (P.map String.toList)) = placeholderDiff
    rw [filterCore_eq d.toList (P.map String.toList) hPb [] rest hsplit, hfil,
      if_pos (show (joinSep marker ([] :: ([] : List (List Char)))).isEmpty = true from rfl)]
    exact mk_toList placeholderDiff

set_option maxRecDepth 1000000 in
/-- Witness for the amended claim C1 at a concrete diff and pattern. -/
theorem filterExcludedFiles_allExcluded_placeholder_witness :
    filterExcludedFiles "diff --git a/foo.lock b/foo.lock" ["foo.lock"] = placeholderDiff :=
  filterExcludedFiles_allExcluded_placeholder "diff --git a/foo.lock b/foo.lock" ["foo.lock"]
    (by decide) (by decide) (by decide)

/-- Claim C2: for every non-empty input diff and every pattern list, the
filter returns a non-empty string. -/
theorem filterExcludedFiles_nonempty (d : String) (P : List String) (hd : d ≠ "") :
    filterExcludedFiles d P ≠ "" := by
  rw [string_ne_empty_iff] at hd ⊢
  rw [show (filterExcludedFiles d P).toList = filterCore d.toList (P.map String.toList) from rfl]
  cases hP : (P.map String.toList).isEmpty with
  | true =>
    have h1 : filterCore d.toList (P.map String.toList) = d.toList := by
      unfold filterCore
      rw [hP, if_pos rfl]
    rw [h1]
    exact hd
  | false =>
    cases hsplit : splitOnL marker d.toList with
    | nil => exact absurd hsplit (splitOnL_ne_nil marker d.toList)
    | cons s0 rest =>
      rw [filterCore_eq d.toList (P.map String.toList) hP s0 rest hsplit]
      cases hemp : (joinSep marker
          (s0 :: rest.filter (keepSection (P.map String.toList)))).isEmpty with
      | true =>
        rw [if_pos rfl]
        exact placeholder_toList_ne_nil
      | false =>
        rw [if_neg (by simp)]
        intro hnil
        rw [hnil] at hemp
        exact Bool.noConfusion hemp

/-- Witness for claim C2 at a concrete non-empty diff. -/
theorem filterExcludedFiles_nonempty_witness : filterExcludedFiles "x" [] ≠ "" :=
  filterExcludedFiles_nonempty "x" [] (by decide)

/-- Claim C7: the filter is idempotent; a second pass removes nothing more. -/
theorem filterExcludedFiles_idempotent (d : String) (P : List String) :
    filterExcludedFiles (filterExcludedFiles d P) P = filterExcludedFiles d P :=
  congrArg String.mk (filterCore_idem d.toList (P.map String.toList))

/-- Claim C8: the section path is the a-slash capture when present, the
b-slash capture only when the a-slash capture is absent, and a section with
no extractable path is retained in the output of the filter. -/
theorem sectionPath_priority_and_fail_open (s : List Char) :
    ((findSlash 'a' s).isSome = true → sectionPath s = findSlash 'a' s) ∧
    (findSlash 'a' s = none → sectionPath s = findSlash 'b' s) ∧
    (∀ (d : String) (P : List String), P ≠ [] →
      s ∈ (splitOnL marker d.toList).drop 1 → sectionPath s = none →
      s ∈ (splitOnL marker (filterExcludedFiles d P).toList).drop 1) := by
  refine ⟨?_, ?_, ?_⟩
  · intro h
    cases hfa : findSlash 'a' s with
    | none => rw [hfa] at h; exact Bool.noConfusion h
    | some p =>
      unfold sectionPath
      rw [hfa]
  · intro h
    unfold sectionPath
    rw [h]
  · intro d P hP hmem hnone
    have hPb : (P.map String.toList).isEmpty = false := by
      cases P with
      | nil => exact absurd rfl hP
      | cons a as => rfl
    cases hsplit : splitOnL marker d.toList with
    | nil => exact absurd hsplit (splitOnL_ne_nil marker d.toList)
    | cons s0 rest =>
      rw [hsplit] at hmem
      have hmem' : s ∈ rest := hmem
      have hkeep : keepSection (P.map String.toList) s = true := by
        unfold keepSection
        rw [hnone]
      have hsmem : s ∈ rest.filter (keepSection (P.map String.toList)) :=
        List.mem_filter.mpr ⟨hmem', hkeep⟩
      have hjoin_ne :
          joinSep marker (s0 :: rest.filter (keepSection (P.map String.toList))) ≠ [] := by
        intro hnil
        cases hfk : rest.filter (keepSection (P.map String.toList)) with
        | nil =>
          rw [hfk] at hsmem
          exact nomatch hsmem
        | cons k ks =>
          rw [hfk, joinSep_cons2] at hnil
          obtain ⟨h1, h2⟩ := List.append_eq_nil.mp hnil
          obtain ⟨h3, -⟩ := List.append_eq_nil.mp h2
          exact marker_ne_nil h3
      have hni : ¬((joinSep marker
          (s0 :: rest.filter (keepSection (P.map String.toList)))).isEmpty = true) := by
        rw [List.isEmpty_iff]
        exact hjoin_ne
      show s ∈ (splitOnL marker
        (String.mk (filterCore d.toList (P.map String.toList))).toList).drop 1
      rw [toList_mk, filterCore_eq d.toList (P.map String.toList) hPb s0 rest hsplit,
        if_neg hni, filterCore_splitOnL_output d.toList (P.map String.toList) hPb s0 rest hsplit]
      exact hsmem

set_option maxRecDepth 1000000 in
/-- Witness for claim C8 at a concrete diff with a pathless section. -/
theorem sectionPath_priority_and_fail_open_witness :
    " nothing".toList ∈
      (splitOnL marker (filterExcludedFiles "diff --git nothing" ["x"]).toList).drop 1 :=
  (sectionPath_priority_and_fail_open " nothing".toList).2.2 "diff --git nothing" ["x"]
    (by decide) (by decide) (by decide)

/-- Claim C10: the empty pattern matches every path by the suffix rule, so
with an empty string in the pattern list every section with an extractable
path is excluded by the filter. -/
theorem emptyPattern_excludes_all :
    (∀ path : List Char, matchesPattern path [] = true) ∧
    (∀ (d : String) (P : List String), "" ∈ P →
      ∀ s ∈ (splitOnL marker d.toList).drop 1, (sectionPath s).isSome = true →
        keepSection (P.map String.toList) s = false) := by
  constructor
  · exact matchesPattern_nil_pattern
  · intro d P hmem s _ hsome
    obtain ⟨p, hp⟩ := Option.isSome_iff_exists.mp hsome
    have hpl : ([] : List Char) ∈ P.map String.toList :=
      List.mem_map.mpr ⟨"", hmem, rfl⟩
    have hany : (P.map String.toList).any (fun pat => matchesPattern p pat) = true := by
      rw [List.any_eq_true]
      exact ⟨[], hpl, matchesPattern_nil_pattern p⟩
    unfold keepSection
    rw [hp]
    show (!((P.map String.toList).any fun pat => matchesPattern p pat)) = false
    rw [hany]
    rfl

set_option maxRecDepth 1000000 in
/-- Witness for claim C10 at a concrete diff and the empty pattern. -/
theorem emptyPattern_excludes_all_witness :
    keepSection ([""].map String.toList) " a/x b/x".toList = false :=
  emptyPattern_excludes_all.2 "diff --git a/x b/x" [""] (by decide) " a/x b/x".toList
    (by decide) (by decide)

set_option maxRecDepth 1000000 in
/-- Claim C3 (corrected), counterexample to the claim as stated: the pattern
consisting of the letter a and a plus sign matches the path of three letters
a under the code's converted regex (the plus survives conversion as a raw
regex quantifier), so the whole diff is excluded and the placeholder is
substituted, while the three specification rules do not match that path. -/
theorem matchesPattern_specRules_counterexample :
    filterExcludedFiles "diff --git a/aaa b/aaa" ["a+"] = placeholderDiff ∧
    specMatches3 "aaa".toList "a+".toList = false ∧
    matchesPattern "aaa".toList "a+".toList = true :=
  ⟨by decide, by decide, by decide⟩

/-- Claim C3 (amended): for patterns built only from glob-safe characters
(no unconverted regex metacharacters) and for paths of non-whitespace
characters (the only extractable paths), the code's exclusion test agrees
exactly with the three specification rules. -/
theorem matchesPattern_eq_specRules_of_globSafe (path pattern : List Char)
    (hp : globSafe pattern = true) (hw : path.all (fun x => !isWsChar x) = true) :
    matchesPattern path pattern = specMatches3 path pattern := by
  unfold matchesPattern specMatches3
  rw [basename_eq_specBasename, glob_rule3_equiv pattern path hp hw,
    Bool.or_comm (pattern.isSuffixOf path) (path == pattern)]

set_option maxRecDepth 1000000 in
/-- Witness for the amended claim C3 at a concrete glob pattern and path. -/
theorem matchesPattern_eq_specRules_witness :
    matchesPattern "src/a.txt".toList "*.txt".toList =
      specMatches3 "src/a.txt".toList "*.txt".toList :=
  matchesPattern_eq_specRules_of_globSafe "src/a.txt".toList "*.txt".toList
    (by decide) (by decide)

set_option maxRecDepth 1000000 in
/-- Claim C4: whenever the numeric regex attempt finds a value, extractScore
returns it; in particular the specification's numeric example yields 82. -/
theorem extractScore_numeric_first :
    (∀ (s : String) (n : Nat), numericScoreScan s.toList = some n → extractScore s = some n) ∧
    extractScore "### Overall Score\n[Score: 82] great job" = some 82 := by
  refine ⟨?_, by decide⟩
  intro s n h
  unfold extractScore extractScoreCore
  rw [h]

set_option maxRecDepth 1000000 in
/-- Witness for claim C4 at a concrete numeric score text. -/
theorem extractScore_numeric_first_witness : extractScore "Score 7" = some 7 :=
  extractScore_numeric_first.1 "Score 7" 7 (by decide)

set_option maxRecDepth 1000000 in
/-- Claim C5: only when the numeric attempt finds nothing does extractScore
use the star-rating attempt, which rescales by round of stars over five
times one hundred; in particular the specification's star example yields
70. -/
theorem extractScore_star_fallback :
    (∀ s : String, numericScoreScan s.toList = none → extractScore s = starBranch s.toList) ∧
    extractScore "[3.5/5 ⭐] decent PR" = some 70 := by
  refine ⟨?_, by decide⟩
  intro s h
  unfold extractScore extractScoreCore
  rw [h]

set_option maxRecDepth 1000000 in
/-- Witness for claim C5 at a concrete star-rating text. -/
theorem extractScore_star_fallback_witness :
    extractScore "[1/5⭐] ok" = starBranch "[1/5⭐] ok".toList :=
  extractScore_star_fallback.1 "[1/5⭐] ok" (by decide)

set_option maxRecDepth 1000000 in
/-- Claim C6 (corrected), counterexample to the claim as stated: extractScore
can return 999, which is not between 0 and 100. -/
theorem extractScore_bound_counterexample :
    extractScore "Score: 999" = some 999 ∧ ¬(999 ≤ 100) :=
  ⟨by decide, by decide⟩

/-- Claim C6 (amended): a non-null extracted score is a natural number, and
when the numeric attempt produced it, it is at most 999 (one to three
digits); it is not guaranteed to be at most 100. -/
theorem extractScore_numeric_le_999 (s : String) (v : Nat)
    (h : extractScore s = some v) (hn : numericScoreScan s.toList ≠ none) : v ≤ 999 := by
  cases hns : numericScoreScan s.toList with
  | none => exact absurd hns hn
  | some w =>
    have hv : v = w := by
      unfold extractScore extractScoreCore at h
      rw [hns] at h
      have h' : (some w : Option Nat) = some v := h
      injection h' with h''
      exact h''.symm
    rw [hv]
    obtain ⟨tl, ds, hds, hw⟩ := numericScoreScan_spec s.toList w hns
    obtain ⟨hall, hlen⟩ := findDigitsSameLine_spec tl ds hds
    rw [hw]
    exact digitsToNat_le_999 ds hall hlen

set_option maxRecDepth 1000000 in
/-- Witness for the amended claim C6 at a concrete numeric score text. -/
theorem extractScore_numeric_le_999_witness :
    extractScore "Score 123" = some 123 ∧ 123 ≤ 999 :=
  ⟨by decide, extractScore_numeric_le_999 "Score 123" 123 (by decide) (by decide)⟩

set_option maxRecDepth 1000000 in
/-- Claim C9: when neither score pattern matches, or the star parse yields
no number, extractScore returns null; in particular the specification's
absent example yields null. -/
theorem extractScore_absent_null :
    (∀ s : String, numericScoreScan s.toList = none → starScan s.toList = none →
      extractScore s = none) ∧
    (∀ (s : String) (run : List Char), numericScoreScan s.toList = none →
      starScan s.toList = some run → parseFloatRun run = none → extractScore s = none) ∧
    extractScore "no rating mentioned here" = none := by
  refine ⟨?_, ?_, by decide⟩
  · intro s h1 h2
    unfold extractScore extractScoreCore starBranch
    rw [h1, h2]
  · intro s run h1 h2 h3
    unfold extractScore extractScoreCore starBranch
    rw [h1, h2]
    show (match parseFloatRun run with
      | none => none
      | some (num, k) => some (roundStars num k)) = none
    rw [h3]

set_option maxRecDepth 1000000 in
/-- Witness for claim C9 at concrete inputs for both the no-match case and
the star-match-but-unparseable case. -/
theorem extractScore_absent_null_witness :
    extractScore "hello" = none ∧ extractScore "[./5⭐]" = none :=
  ⟨extractScore_absent_null.1 "hello" (by decide) (by decide),
   extractScore_absent_null.2.1 "[./5⭐]" ['.'] (by decide) (by decide) (by decide)⟩

end DiffGuard
